import Mathlib

/-!
Verification development for the core components of the holocron repository:

* the recursive-descent Lua table literal parser (src/lua_parser.py), and
* the quest dependency resolver solve_dependency (src/server.py, lines 642-691).

Modelling conventions (shallow embedding of the Python source):

* The Python source string together with the mutable integer cursor idx is
  modelled by the list of characters that lie at positions idx, idx+1, ... of
  the string: every parsing function takes the remaining characters and
  returns the value together with the characters remaining after it.  The
  cursor in the source only ever moves right, and Python slices s[start:idx]
  clamp at the end of the string, so this representation is exact.
* An unchecked read lua_string[idx] in the source raises IndexError when
  idx >= len(lua_string); this is modelled by PyErr.indexError.
* parse_object's while-loop can fail to advance the cursor (see C4), so the
  recursive parsing functions carry fuel; PyErr.noFuel is an artifact of the
  embedding marking runs that exceed the supplied fuel.  Concrete inputs are
  run with ample fuel, and universal statements quantify over the fuel.
* Python floats produced by float(substring) are modelled as exact decimal
  numbers mantissa / 10 ^ scale (PyNum.float, kept in lowest decimal terms,
  so equal decimal values have equal representations).  float rounding to
  binary is not modelled; it is exact for all magnitudes appearing in the
  spec and in the theorems below.
* Python dictionaries are modelled as insertion-ordered association lists;
  updating an existing key keeps its position (dictInsert), and
  list(obj.values()) is the list of second components.
* Character classes (isspace, isdigit, isalpha, isalnum, the regex class \w)
  are modelled on the ASCII range, which covers the save-file format and all
  inputs appearing in the claims.
-/

namespace Holocron

/-- Python str.isspace restricted to the ASCII range:
space, tab, newline, carriage return, vertical tab, form feed. -/
def isWs (c : Char) : Bool :=
  c = ' ' || c = '\t' || c = '\n' || c = '\r' || c = '\x0b' || c = '\x0c'

/-- The regex character class \w (and Python isalnum-or-underscore scans),
ASCII range. -/
def isWord (c : Char) : Bool :=
  c.isAlphanum || c = '_'

/-- Does the remainder start with the two characters "--"? -/
def isCommentStart : List Char → Bool
  | '-' :: '-' :: _ => true
  | _ => false

/-- re.sub(r'--.*', '', s): delete every occurrence of "--" together with the
rest of its line (the newline itself is kept, since "." does not match it).
The Boolean state is true while skipping the remainder of a comment line;
on detecting "--" the second dash (rest.tail) is consumed as well. -/
def stripCommentsAux : Bool → List Char → List Char
  | _, [] => []
  | true, c :: rest =>
    if c = '\n' then '\n' :: stripCommentsAux false rest
    else stripCommentsAux true rest
  | false, c :: rest =>
    if isCommentStart (c :: rest) then
      match rest with
      | _ :: rest2 => stripCommentsAux true rest2
      | [] => []
    else c :: stripCommentsAux false rest

/-- Comment removal, lua_parser.py line 12. -/
def stripComments (l : List Char) : List Char :=
  stripCommentsAux false l

/-- Does the list start with an optional whitespace run, then '=', optional
whitespace, then '{'?  This is the `\s*=\s*\{` part of the top-level regex
`(\w+)\s*=\s*\{` (lua_parser.py line 134). -/
def checkAssignHead (l : List Char) : Bool :=
  match l.dropWhile isWs with
  | '=' :: l2 =>
    match l2.dropWhile isWs with
    | '{' :: _ => true
    | _ => false
  | _ => false

/-- re.search(r'(\w+)\s*=\s*\{', s): try each start position from the left;
at a word character the greedy `\w+` group is the maximal word run (no
shorter run can be followed by `\s*=`, since a word character is neither
whitespace nor '='), and the rest of the pattern is checked after it.
Returns the group-1 characters and the characters after the group
(the cursor position match.start() + len(match.group(1)) of line 136). -/
def findAssign : List Char → Option (List Char × List Char)
  | [] => none
  | c :: rest =>
    if isWord c then
      let run := (c :: rest).takeWhile isWord
      let after := (c :: rest).drop run.length
      if checkAssignHead after then some (run, after) else findAssign rest
    else findAssign rest

/-- Failure modes of the embedded parser.  indexError models Python raising
IndexError on an unchecked lua_string[idx] read; noFuel is the fuel artifact
of the embedding (reached only by runs longer than the supplied fuel). -/
inductive PyErr where
  | indexError
  | noFuel
deriving DecidableEq

/-- Result of parse_number: a Python int, or a Python float which is not
integer-valued.  The float mantissa / 10 ^ scale is kept in lowest decimal
terms (scale positive and mantissa not divisible by 10), so the
representation of a decimal value is unique. -/
inductive PyNum where
  | int (i : Int)
  | float (mant : Int) (scale : Nat)
deriving DecidableEq

/-- Keys of the Python dict built by parse_object: numbers (Python unifies
equal int and float keys, and the parser only ever produces float keys that
are not integer-valued, so the canonical PyNum is a faithful key) or
strings. -/
inductive LuaKey where
  | num (n : PyNum)
  | str (s : String)
deriving DecidableEq

/-- Structured values produced by the parser. -/
inductive LuaVal where
  | nil
  | bool (b : Bool)
  | num (n : PyNum)
  | str (s : String)
  | list (xs : List LuaVal)
  | table (es : List (LuaKey × LuaVal))

/-- Value of a list of decimal digits, most significant first. -/
def digitsVal (l : List Char) : Nat :=
  l.foldl (fun a c => 10 * a + (c.toNat - 48)) 0

/-- Drop trailing '0' characters (used to normalise the fractional part of a
decimal: trailing zeros do not change the value). -/
def dropTrailingZeros (l : List Char) : List Char :=
  (l.reverse.dropWhile (· = '0')).reverse

/-- Split the optional leading minus sign off a scanned numeric
substring. -/
def stripSign : List Char → Bool × List Char
  | '-' :: rest => (true, rest)
  | cs => (false, cs)

/-- Python float(s) applied to a scanned substring of shape ('-')?[0-9.]*,
composed with the val.is_integer() / int(val) branch of parse_number
(lua_parser.py lines 71-75).  float() succeeds on such a substring exactly
when it has at least one digit and at most one dot.  none models the
ValueError branch. -/
def pyNumOfChars (cs : List Char) : Option PyNum :=
  let neg := (stripSign cs).1
  let body := (stripSign cs).2
  if body.all (fun c => c.isDigit || c = '.') ∧ body.count '.' ≤ 1 ∧
      body.any Char.isDigit then
    let ip := body.takeWhile (· ≠ '.')
    let fp := (body.dropWhile (· ≠ '.')).drop 1
    let fp2 := dropTrailingZeros fp
    if fp2.isEmpty then
      let v : Int := Int.ofNat (digitsVal ip)
      some (.int (if neg then -v else v))
    else
      let m : Int := Int.ofNat (digitsVal (ip ++ fp2))
      some (.float (if neg then -m else m) fp2.length)
  else none

/-- parse_number (lua_parser.py lines 64-77) on a nonempty remainder:
consume an optional '-', then the maximal run of digits and dots; apply
float() to the scanned substring, returning int 0 on ValueError. -/
def parseNumCore (c : Char) (rest : List Char) : PyNum × List Char :=
  let tail0 := if c = '-' then rest else c :: rest
  let digits := tail0.takeWhile (fun d => d.isDigit || d = '.')
  let remaining := tail0.drop digits.length
  let scanned := (if c = '-' then ['-'] else []) ++ digits
  match pyNumOfChars scanned with
  | none => (.int 0, remaining)
  | some pn => (pn, remaining)

/-- parse_number including the unchecked lua_string[idx] read of line 67
(IndexError when the cursor is at the end). -/
def parseNum : List Char → Except PyErr (PyNum × List Char)
  | [] => .error .indexError
  | c :: rest => .ok (parseNumCore c rest)

/-- The scan of parse_string (lua_parser.py lines 51-62), applied to the
characters after the opening quote: advance to the next '"', skipping two
characters at every backslash (the pair is kept verbatim in the value, no
escape decoding).  Returns the string contents and the characters after the
closing quote.  If the quote is never found the contents run to the end of
the input (Python slices clamp) and nothing remains. -/
def scanStringLit : List Char → List Char × List Char
  | [] => ([], [])
  | '"' :: rest => ([], rest)
  | '\\' :: [] => (['\\'], [])
  | '\\' :: c :: rest =>
    let p := scanStringLit rest
    ('\\' :: c :: p.1, p.2)
  | c :: rest =>
    let p := scanStringLit rest
    (c :: p.1, p.2)

/-- Insertion into the insertion-ordered dict: an existing key keeps its
position and gets the new value, a new key is appended. -/
def dictInsert (obj : List (LuaKey × LuaVal)) (k : LuaKey) (v : LuaVal) :
    List (LuaKey × LuaVal) :=
  match obj with
  | [] => [(k, v)]
  | (k1, v1) :: rest =>
    if k1 = k then (k1, v) :: rest else (k1, v1) :: dictInsert rest k v

/-- line 90: list(obj.values()) if is_array and obj else obj. -/
def finishObj (obj : List (LuaKey × LuaVal)) (isArr : Bool) : LuaVal :=
  if isArr && !obj.isEmpty then .list (obj.map Prod.snd) else .table obj

/-- Separator handling after an entry (lines 127-129): skip whitespace, then
consume one ',' or ';' if present. -/
def sepSkip (l : List Char) : List Char :=
  match l.dropWhile isWs with
  | [] => []
  | c :: rest => if c = ',' || c = ';' then rest else c :: rest

/-- Bracketed key [expr] = (lines 94-107), applied to the characters after
the '[': skip whitespace; the unchecked read of line 98 dispatches on '"'
(string key via parse_string, otherwise parse_number); then the unchecked
reads of lines 103 and 106 optionally consume ']' and '='. -/
def parseKeyBracket (restBr : List Char) : Except PyErr (LuaKey × List Char) :=
  match restBr.dropWhile isWs with
  | [] => .error .indexError
  | c2 :: rest2 =>
    let kr : LuaKey × List Char :=
      if c2 = '"' then
        let p := scanStringLit rest2
        (LuaKey.str (String.mk p.1), p.2)
      else
        let p := parseNumCore c2 rest2
        (LuaKey.num p.1, p.2)
    match kr.2.dropWhile isWs with
    | [] => .error .indexError
    | d1 :: restD =>
      let l5 := if d1 = ']' then restD else d1 :: restD
      match l5.dropWhile isWs with
      | [] => .error .indexError
      | e1 :: restE =>
        .ok (kr.1, if e1 = '=' then restE else e1 :: restE)

/-- Bareword key (lines 108-117), applied to a remainder starting with a
letter or underscore: take the maximal word run as the key, skip
whitespace, and the unchecked read of line 116 optionally consumes '='. -/
def parseKeyBare (l1 : List Char) : Except PyErr (LuaKey × List Char) :=
  let run := l1.takeWhile isWord
  let afterRun := l1.drop run.length
  match afterRun.dropWhile isWs with
  | [] => .error .indexError
  | d1 :: restD =>
    .ok (LuaKey.str (String.mk run), if d1 = '=' then restD else d1 :: restD)

/-- The two mutually recursive procedures of the parser, combined into one
fuelled function so that recursion is structural on the fuel:
.value l is parse_value (lines 22-49) on remainder l, and
.tableBody l obj isArr aidx is the while-loop of parse_object
(lines 86-131) on remainder l with accumulated dict obj, is_array flag
isArr and next positional slot aidx. -/
inductive ParseCall where
  | value (l : List Char)
  | tableBody (l : List Char) (obj : List (LuaKey × LuaVal)) (isArr : Bool)
      (aidx : Nat)

def parseRun : Nat → ParseCall → Except PyErr (LuaVal × List Char)
  | 0, _ => .error .noFuel
  | fuel + 1, .value l =>
    match l.dropWhile isWs with
    | [] => .ok (.nil, [])
    | c :: rest =>
      if c = '{' then
        parseRun fuel (.tableBody rest [] true 1)
      else if c = '"' then
        let p := scanStringLit rest
        .ok (.str (String.mk p.1), p.2)
      else if c.isDigit || c = '-' then
        let p := parseNumCore c rest
        .ok (.num p.1, p.2)
      else if List.isPrefixOf ['t', 'r', 'u', 'e'] (c :: rest) then
        .ok (.bool true, (c :: rest).drop 4)
      else if List.isPrefixOf ['f', 'a', 'l', 's', 'e'] (c :: rest) then
        .ok (.bool false, (c :: rest).drop 5)
      else if List.isPrefixOf ['n', 'i', 'l'] (c :: rest) then
        .ok (.nil, (c :: rest).drop 3)
      else
        let run := (c :: rest).takeWhile isWord
        .ok (.str (String.mk run), (c :: rest).drop run.length)
  | fuel + 1, .tableBody l obj isArr aidx =>
    match l with
    | [] => .ok (.table obj, [])
    | c0 :: rest0 =>
      match (c0 :: rest0).dropWhile isWs with
      | '}' :: restC => .ok (finishObj obj isArr, restC)
      | [] => .error .indexError
      | c1 :: rest1 =>
        if c1 = '[' then
          match parseKeyBracket rest1 with
          | .error er => .error er
          | .ok (key, l7) =>
            match parseRun fuel (.value l7) with
            | .error er => .error er
            | .ok (v, rem) =>
              parseRun fuel
                (.tableBody (sepSkip rem) (dictInsert obj key v) false aidx)
        else if c1.isAlpha || c1 = '_' then
          match parseKeyBare (c1 :: rest1) with
          | .error er => .error er
          | .ok (key, l5) =>
            match parseRun fuel (.value l5) with
            | .error er => .error er
            | .ok (v, rem) =>
              parseRun fuel
                (.tableBody (sepSkip rem) (dictInsert obj key v) false aidx)
        else
          match parseRun fuel (.value (c1 :: rest1)) with
          | .error er => .error er
          | .ok (v, rem) =>
            parseRun fuel
              (.tableBody (sepSkip rem)
                (dictInsert obj (.num (.int (aidx : Int))) v) isArr (aidx + 1))

/-- parse_value on a remainder, with fuel. -/
def parseValue (fuel : Nat) (l : List Char) : Except PyErr (LuaVal × List Char) :=
  parseRun fuel (.value l)

/-- parse_lua_table (lua_parser.py lines 6-142): strip comments, locate the
first `identifier = {` via the regex, and parse one value after the '=',
wrapping it as a one-entry mapping; return the empty mapping when the regex
does not match. -/
def parseLuaTable (fuel : Nat) (input : List Char) : Except PyErr LuaVal :=
  let s := stripComments input
  match findAssign s with
  | none => .ok (.table [])
  | some (name, after) =>
    match after.dropWhile isWs with
    | [] => .error .indexError
    | c :: rest =>
      if c = '=' then
        match parseRun fuel (.value rest) with
        | .error e => .error e
        | .ok (v, _) => .ok (.table [(.str (String.mk name), v)])
      else .ok (.table [])

end Holocron

namespace Holocron

/-- solve_dependency (src/server.py lines 642-691), with the database
collaborator injected: pre q models the quest_dependencies query for q
(.error = the query raised, caught by the try/except of line 689),
ttl q models the quest_definitions title query (.error = raised,
.ok none = no row).  The Python depth counter (guard: depth > 10 returns
None, line 647) is replaced by the equivalent remaining gas 11 - depth, so
that the recursion (depth+1 in line 666) is structural: gas = 0 iff
depth > 10.  The for-loop over the prerequisite rows (lines 661-677)
skips completed parents and acts at the first parent not in completed_ids,
which is rows.find?. -/
def solveGo (pre : Nat → Except Unit (List Nat))
    (ttl : Nat → Except Unit (Option String)) :
    Nat → Nat → List Nat → Option (Nat × String)
  | 0, _, _ => none
  | gas + 1, questId, completed =>
    if completed.contains questId then none
    else
      match pre questId with
      | .error _ => none
      | .ok rows =>
        match rows.find? (fun p => !(completed.contains p)) with
        | some parent =>
          match solveGo pre ttl gas parent completed with
          | some mp => some mp
          | none =>
            match ttl parent with
            | .error _ => none
            | .ok trow => some (parent, trow.getD "Unknown Quest")
        | none =>
          match ttl questId with
          | .error _ => none
          | .ok trow => some (questId, trow.getD "Unknown Quest")

/-- solve_dependency(quest_id, completed_ids, depth). -/
def solveDependency (pre : Nat → Except Unit (List Nat))
    (ttl : Nat → Except Unit (Option String))
    (questId : Nat) (completed : List Nat) (depth : Nat) :
    Option (Nat × String) :=
  solveGo pre ttl (11 - depth) questId completed

end Holocron

namespace Holocron

/-- Decimal digits of a natural number, most significant first; the first
argument is fuel bounding the number of digits (any fuel above the actual
value suffices, see natToDigitsAux_fuel). -/
def natToDigitsAux : Nat → Nat → List Char
  | 0, _ => []
  | f + 1, n =>
    if n < 10 then [Char.ofNat (48 + n)]
    else natToDigitsAux f (n / 10) ++ [Char.ofNat (48 + n % 10)]

/-- Decimal digits of a natural number, most significant first. -/
def natToDigits (n : Nat) : List Char :=
  natToDigitsAux (n + 1) n

/-- Modelled from the spec: the repository contains no Lua serializer (only
the parser), so re-serialization for the round-trip property of section 8 is
modelled from the spec words: render a parsed value back to Lua literal
text; integers in decimal (the round-trip claim only exercises
positive-integer entries; other values render as nil). -/
def serializeVal : LuaVal → List Char
  | .num (.int i) =>
    if i < 0 then '-' :: natToDigits i.natAbs else natToDigits i.natAbs
  | _ => ['n', 'i', 'l']

/-- Modelled from the spec: comma-separated positional entries. -/
def serializeEntries : List LuaVal → List Char
  | [] => []
  | [v] => serializeVal v
  | v :: rest => serializeVal v ++ ',' :: serializeEntries rest

/-- Modelled from the spec: one top-level assignment name = { entries }. -/
def serializeSeq (name : List Char) (vs : List LuaVal) : List Char :=
  name ++ ' ' :: '=' :: ' ' :: '{' :: (serializeEntries vs ++ ['}'])

/-- The linear prerequisite chain of C2: quest 3 requires [2], quest 2
requires [1], quest 1 requires nothing. -/
def preChain : Nat → Except Unit (List Nat) :=
  fun q => .ok (if q = 3 then [2] else if q = 2 then [1] else [])

/-- Titles for the chain of C2. -/
def ttlChain : Nat → Except Unit (Option String) :=
  fun q => .ok (some (if q = 1 then "One" else if q = 2 then "Two" else "Three"))

/-- The 12-quest prerequisite cycle of C3: quest i requires i+1 for
i < 12, and quest 12 requires quest 1 — a cycle longer than the depth
bound of 10. -/
def preCyc : Nat → Except Unit (List Nat) :=
  fun q => .ok [if q < 12 then q + 1 else 1]

/-- Titles for the cycle of C3. -/
def ttlCyc : Nat → Except Unit (Option String) :=
  fun _ => .ok (some "Cyc")

/-- A prerequisite query that always raises (C9). -/
def preFail : Nat → Except Unit (List Nat) := fun _ => .error ()

/-- A title query that always raises (C9). -/
def ttlFail : Nat → Except Unit (Option String) := fun _ => .error ()

/-- An empty prerequisite table (C9 witness). -/
def preEmpty : Nat → Except Unit (List Nat) := fun _ => .ok []

/-- A title query that always finds a row (C9 witness). -/
def ttlOkC9 : Nat → Except Unit (Option String) := fun _ => .ok (some "T")

/-- Prerequisites for the C10 witness: quest 3 requires quest 2, which has
no prerequisites. -/
def preC10 : Nat → Except Unit (List Nat) :=
  fun q => .ok (if q = 3 then [2] else [])

/-- A title table with no rows at all (C10 witness). -/
def ttlNoRow : Nat → Except Unit (Option String) := fun _ => .ok none

/-- Does a parse result carry an ordered-sequence value? -/
def isSeqResult : Except PyErr (LuaVal × List Char) → Bool
  | .ok (.list _, _) => true
  | _ => false

/-- Does a parse result carry the empty ordered sequence? -/
def isEmptySeqResult : Except PyErr (LuaVal × List Char) → Bool
  | .ok (.list [], _) => true
  | _ => false

/-- The entries the parse_object loop accumulates for the positional
values vs starting at slot a: value i keyed by integer a + i. -/
def entriesFor : List LuaVal → Nat → List (LuaKey × LuaVal)
  | [], _ => []
  | v :: rest, a => (LuaKey.num (.int (a : Int)), v) :: entriesFor rest (a + 1)

end Holocron

namespace Holocron

/-! ### Resolver claims -/

/-- C2: for the linear chain (3 requires 2, 2 requires 1, 1 requires
nothing) with an empty completed set, resolve(3, \x7b\x7d) returns
(1, title 1), the deepest unmet leaf; and in general, whenever the
recursive call on the first unmet prerequisite (left-to-right over the
rows, i.e. rows.find?) finds a deeper blocker, that blocker is returned
unchanged. -/
theorem c2_deepest_unmet_blocker :
    solveDependency preChain ttlChain 3 [] 0 = some (1, "One") ∧
    ∀ (pre : Nat → Except Unit (List Nat))
      (ttl : Nat → Except Unit (Option String))
      (q : Nat) (comp : List Nat) (d : Nat) (rows : List Nat) (p : Nat)
      (r : Nat × String),
      d ≤ 10 → comp.contains q = false → pre q = .ok rows →
      rows.find? (fun x => !(comp.contains x)) = some p →
      solveDependency pre ttl p comp (d + 1) = some r →
      solveDependency pre ttl q comp d = some r := by
  refine ⟨rfl, ?_⟩
  intro pre ttl q comp d rows p r hd hq hpre hfind hrec
  have hg : 11 - d = (11 - (d + 1)) + 1 := by omega
  have hrec2 : solveGo pre ttl (11 - (d + 1)) p comp = some r := hrec
  show solveGo pre ttl (11 - d) q comp = some r
  rw [hg, solveGo]
  split
  · next hcq => rw [hq] at hcq; exact absurd hcq (by decide)
  · simp only [hpre, hfind, hrec2]

/-- C2 witness: the general propagation statement applied to the concrete
chain at quest 3, depth 0. -/
theorem c2_witness :
    solveDependency preChain ttlChain 3 [] 0 = some (1, "One") :=
  c2_deepest_unmet_blocker.2 preChain ttlChain 3 [] 0 [2] 2 (1, "One")
    (by omega) rfl rfl rfl rfl

/-- C3 counterexample: on the 12-cycle with an empty completed set the
top-level resolve does NOT report "no blocker found" (none), contrary to
the claim: it returns the prerequisite reached at the depth cutoff. -/
theorem c3_counterexample :
    solveDependency preCyc ttlCyc 1 [] 0 ≠ none := by
  have e : solveDependency preCyc ttlCyc 1 [] 0 = some (12, "Cyc") := rfl
  intro h
  rw [e] at h
  exact Option.noConfusion h

/-- C3 amended: every call of resolve with depth greater than 10 (i.e.
depth = d + 11) returns none; on a cycle longer than the depth bound the
top-level resolve still terminates, but it returns the prerequisite
examined at the cutoff as a blocker pair rather than none (the aborted
recursive call looks like "parent has no missing prerequisites", so the
parent is reported as the blocker). -/
theorem c3_depth_guard :
    (∀ (pre : Nat → Except Unit (List Nat))
       (ttl : Nat → Except Unit (Option String))
       (q : Nat) (comp : List Nat) (d : Nat),
       solveDependency pre ttl q comp (d + 11) = none) ∧
    solveDependency preCyc ttlCyc 1 [] 0 = some (12, "Cyc") := by
  refine ⟨?_, rfl⟩
  intro pre ttl q comp d
  have h : 11 - (d + 11) = 0 := by omega
  show solveGo pre ttl (11 - (d + 11)) q comp = none
  rw [h]
  rfl

/-- C9: a lookup failure (raise) in the collaborator is treated as "no
data" and the resolver returns none: if the prerequisite query for the
requested quest raises, the result is none, and if the title query raises
(for every quest), the result is none; the Option return type of the
embedding carries no exception, so nothing is raised past the resolver
boundary. -/
theorem c9_lookup_failure_none :
    (∀ (pre : Nat → Except Unit (List Nat))
       (ttl : Nat → Except Unit (Option String))
       (q : Nat) (comp : List Nat) (d : Nat),
       pre q = .error () → solveDependency pre ttl q comp d = none) ∧
    (∀ (pre : Nat → Except Unit (List Nat))
       (ttl : Nat → Except Unit (Option String))
       (q : Nat) (comp : List Nat) (d : Nat),
       (∀ x, ttl x = .error ()) → solveDependency pre ttl q comp d = none) := by
  constructor
  · intro pre ttl q comp d hpre
    show solveGo pre ttl (11 - d) q comp = none
    cases hg : 11 - d with
    | zero => rfl
    | succ g =>
      rw [solveGo]
      split
      · rfl
      · simp only [hpre]
  · intro pre ttl q comp d httl
    show solveGo pre ttl (11 - d) q comp = none
    generalize 11 - d = g
    induction g generalizing q with
    | zero => rfl
    | succ g ih =>
      rw [solveGo]
      split
      · rfl
      · cases hpre : pre q with
        | error e => simp only [hpre]
        | ok rows =>
          cases hfind : rows.find? (fun p => !(comp.contains p)) with
          | none => simp only [hpre, hfind, httl q]
          | some parent => simp only [hpre, hfind, ih parent, httl parent]

/-- C9 witness: the two failure statements at concrete collaborators. -/
theorem c9_witness :
    solveDependency preFail ttlOkC9 5 [] 0 = none ∧
    solveDependency preEmpty ttlFail 5 [] 0 = none :=
  ⟨c9_lookup_failure_none.1 preFail ttlOkC9 5 [] 0 rfl,
   c9_lookup_failure_none.2 preEmpty ttlFail 5 [] 0 (fun _ => rfl)⟩

/-- C10: whenever resolve returns a pair (rid, t) and the title query for
rid finds no definition row, the returned title t is the literal fallback
"Unknown Quest". -/
theorem c10_unknown_quest_fallback :
    ∀ (pre : Nat → Except Unit (List Nat))
      (ttl : Nat → Except Unit (Option String))
      (q : Nat) (comp : List Nat) (d : Nat) (rid : Nat) (t : String),
      solveDependency pre ttl q comp d = some (rid, t) →
      ttl rid = .ok none → t = "Unknown Quest" := by
  intro pre ttl q comp d rid t hsolve httl
  have main : ∀ (g q2 : Nat),
      solveGo pre ttl g q2 comp = some (rid, t) → t = "Unknown Quest" := by
    intro g
    induction g with
    | zero => intro q2 h; exact Option.noConfusion h
    | succ g ih =>
      intro q2 h
      by_cases hc : comp.contains q2 = true
      · rw [solveGo, if_pos hc] at h; exact Option.noConfusion h
      · cases hpre : pre q2 with
        | error e =>
          rw [solveGo, if_neg hc, hpre] at h
          exact Option.noConfusion h
        | ok rows =>
          rw [solveGo, if_neg hc, hpre] at h
          dsimp only at h
          cases hfind : rows.find? (fun p => !(comp.contains p)) with
          | some parent =>
            rw [hfind] at h
            dsimp only at h
            cases hrec : solveGo pre ttl g parent comp with
            | some mp =>
              rw [hrec] at h
              dsimp only at h
              injection h with h2
              rw [h2] at hrec
              exact ih parent hrec
            | none =>
              rw [hrec] at h
              dsimp only at h
              cases httl2 : ttl parent with
              | error e => rw [httl2] at h; exact Option.noConfusion h
              | ok trow =>
                rw [httl2] at h
                dsimp only at h
                injection h with h3
                have hp : parent = rid := congrArg Prod.fst h3
                have ht : trow.getD "Unknown Quest" = t := congrArg Prod.snd h3
                rw [hp] at httl2
                rw [httl2] at httl
                injection httl with h4
                rw [h4] at ht
                simpa using ht.symm
          | none =>
            rw [hfind] at h
            dsimp only at h
            cases httl2 : ttl q2 with
            | error e => rw [httl2] at h; exact Option.noConfusion h
            | ok trow =>
              rw [httl2] at h
              dsimp only at h
              injection h with h3
              have hp : q2 = rid := congrArg Prod.fst h3
              have ht : trow.getD "Unknown Quest" = t := congrArg Prod.snd h3
              rw [hp] at httl2
              rw [httl2] at httl
              injection httl with h4
              rw [h4] at ht
              simpa using ht.symm
  exact main (11 - d) q hsolve

/-- C10 witness: with no title rows at all, quest 2 is reported as the
blocker of quest 3 with the fallback title. -/
theorem c10_witness :
    solveDependency preC10 ttlNoRow 3 [] 0 = some (2, "Unknown Quest") ∧
    "Unknown Quest" = "Unknown Quest" :=
  ⟨rfl, c10_unknown_quest_fallback preC10 ttlNoRow 3 [] 0 2 "Unknown Quest" rfl rfl⟩

/-! ### Parser claims -/

/-- C4: the claim "parse never raises" fails on truncated input: for
"t = \x7b " (a table opened and never closed, with trailing whitespace, as
when a save file is read mid-write) the while-loop of parse_object enters
with idx < n, skip_whitespace advances idx to n, the checked "}" test
fails, and the unchecked lua_string[idx] read of line 94 raises
IndexError.  This holds for every fuel, so it is a genuine error of the
code, not fuel exhaustion of the embedding. -/
theorem c4_truncated_input_raises :
    ∀ fuel, parseLuaTable (fuel + 2) "t = \x7b ".data = .error .indexError :=
  fun _ => rfl

/-- C5: the comment-stripping pass removes everything from "--" to the end
of the line even inside a quoted string literal, so string values
containing "--" are corrupted rather than preserved: stripping turns
t = \x7ba="x--y"\x7d into t = \x7ba="x and the parsed value of key a is
"x", not "x--y". -/
theorem c5_comment_stripping_corrupts :
    stripComments "t = \x7ba=\"x--y\"\x7d".data = "t = \x7ba=\"x".data ∧
    parseLuaTable 100 "t = \x7ba=\"x--y\"\x7d".data =
      .ok (.table [(.str "t", .table [(.str "a", .str "x")])]) :=
  ⟨rfl, rfl⟩

/-- C6: parse_number scans an optional leading minus, digits and dots, and
returns an integer exactly when the float value has no fractional part:
"3.0" yields integer 3, "3.5" yields the float 35/10, "-7" yields integer
-7, a trailing dot "3." still parses as integer 3, malformed numeric text
(two dots "1.2.3", or a bare "-") yields integer 0 instead of raising, and
parse_number returns ok on every nonempty remainder (it can only raise via
the unchecked read when the cursor is already at the end of the input). -/
theorem c6_parse_number :
    parseNum "3.0".data = .ok (.int 3, []) ∧
    parseNum "3.5".data = .ok (.float 35 1, []) ∧
    parseNum "-7".data = .ok (.int (-7), []) ∧
    parseNum "3.".data = .ok (.int 3, []) ∧
    parseNum "1.2.3".data = .ok (.int 0, []) ∧
    parseNum "-".data = .ok (.int 0, []) ∧
    ∀ c rest, ∃ pn rem, parseNum (c :: rest) = .ok (pn, rem) :=
  ⟨rfl, rfl, rfl, rfl, rfl, rfl, fun c rest => ⟨(parseNumCore c rest).1,
    (parseNumCore c rest).2, rfl⟩⟩

/-- C8: when the comment-stripped input has no match of the top-level
assignment pattern identifier = \x7b (findAssign returns none), parse
returns the empty mapping rather than an error; in particular on
"garbage no assignment". -/
theorem c8_no_assignment_empty :
    (∀ fuel input, findAssign (stripComments input) = none →
      parseLuaTable fuel input = .ok (.table [])) ∧
    parseLuaTable 100 "garbage no assignment".data = .ok (.table []) := by
  refine ⟨?_, rfl⟩
  intro fuel input h
  simp only [parseLuaTable, h]

/-- C8 witness: the general statement applied to the concrete input. -/
theorem c8_witness :
    parseLuaTable 7 "garbage no assignment".data = .ok (.table []) :=
  c8_no_assignment_empty.1 7 "garbage no assignment".data rfl

/-- Once the is_array flag of parse_object is false (a bracketed or
bareword key was seen), the loop can never return an ordered sequence:
every later iteration passes the flag on unchanged (or sets it false
again), and the closing-brace branch then returns the mapping. -/
theorem tableBody_not_seq_of_not_array (fuel : Nat) :
    ∀ l obj aidx,
      isSeqResult (parseRun fuel (.tableBody l obj false aidx)) = false := by
  induction fuel with
  | zero => intro l obj aidx; rfl
  | succ f ih =>
    intro l obj aidx
    rw [parseRun.eq_def]
    dsimp only
    split
    · rfl
    · split
      · rfl
      · rfl
      · split
        · split
          · rfl
          · split
            · rfl
            · exact ih _ _ _
        · split
          · split
            · rfl
            · split
              · rfl
              · exact ih _ _ _
          · split
            · rfl
            · exact ih _ _ _

/-- No run of the parser ever returns the empty ordered sequence: the only
place a sequence is built is the closing-brace branch of parse_object, and
it requires the accumulated dict to be nonempty. -/
theorem parseRun_no_empty_seq (fuel : Nat) :
    ∀ call, isEmptySeqResult (parseRun fuel call) = false := by
  induction fuel with
  | zero => intro call; rfl
  | succ f ih =>
    intro call
    cases call with
    | value l =>
      rw [parseRun.eq_def]
      dsimp only
      split
      · rfl
      · split
        · exact ih _
        · split
          · rfl
          · split
            · rfl
            · split
              · rfl
              · split
                · rfl
                · split
                  · rfl
                  · rfl
    | tableBody l obj isArr aidx =>
      rw [parseRun.eq_def]
      dsimp only
      split
      · rfl
      · split
        · rw [finishObj]
          split
          · next hcond =>
              cases obj with
              | nil => simp at hcond
              | cons p rest => rfl
          · rfl
        · rfl
        · split
          · split
            · rfl
            · split
              · rfl
              · exact ih _
          · split
            · split
              · rfl
              · split
                · rfl
                · exact ih _
            · split
              · rfl
              · exact ih _

/-- C1: a parsed table is classified as an ordered sequence only if every
key encountered, in order, was a positional slot and the table has at
least one entry: once a bracketed or bareword key makes is_array false the
result is never a sequence, no result is ever the empty sequence, and
concretely parse "t = \x7b1,2,3\x7d" yields the sequence [1,2,3] while
parse with bracketed keys [10] and [20] yields a mapping keyed by the
integers 10 and 20. -/
theorem c1_sequence_classification :
    (∀ fuel l obj aidx,
      isSeqResult (parseRun fuel (.tableBody l obj false aidx)) = false) ∧
    (∀ fuel call, isEmptySeqResult (parseRun fuel call) = false) ∧
    parseLuaTable 100 "t = \x7b1,2,3\x7d".data =
      .ok (.table [(.str "t",
        .list [.num (.int 1), .num (.int 2), .num (.int 3)])]) ∧
    parseLuaTable 100 "t = \x7b[10]=\"x\", [20]=\"y\"\x7d".data =
      .ok (.table [(.str "t",
        .table [(.num (.int 10), .str "x"), (.num (.int 20), .str "y")])]) :=
  ⟨tableBody_not_seq_of_not_array, parseRun_no_empty_seq, rfl, rfl⟩

/-! ### Round-trip infrastructure (C7) -/

/-- A decimal digit character is not whitespace. -/
theorem isWs_eq_false_of_isDigit {c : Char} (h : c.isDigit = true) :
    isWs c = false := by
  unfold isWs
  rcases Bool.eq_false_or_eq_true (c = ' ' || c = '\t' || c = '\n' || c = '\r' ||
      c = '\x0b' || c = '\x0c') with h2 | h2
  · exfalso
    simp only [Bool.or_eq_true, decide_eq_true_eq] at h2
    rcases h2 with ((((h3 | h3) | h3) | h3) | h3) | h3 <;> rw [h3] at h <;>
      exact absurd h (by decide)
  · exact h2

/-- A digit character differs from every non-digit character. -/
theorem ne_of_isDigit {c d : Char} (h : c.isDigit = true)
    (hd : d.isDigit = false) : c ≠ d := by
  intro he; rw [he, hd] at h; exact Bool.noConfusion h

/-- A digit character is not a letter. -/
theorem isAlpha_eq_false_of_isDigit {c : Char} (h : c.isDigit = true) :
    c.isAlpha = false := by
  simp [Char.isDigit, UInt32.le_def, BitVec.le_def] at h
  simp [Char.isAlpha, Char.isUpper, Char.isLower, UInt32.le_def, BitVec.le_def]
  omega

/-- natToDigitsAux yields digit characters, evaluates back to the number,
and is nonempty, whenever the fuel exceeds the number. -/
theorem natToDigitsAux_spec :
    ∀ f n, n < f →
      (∀ c ∈ natToDigitsAux f n, c.isDigit = true) ∧
      digitsVal (natToDigitsAux f n) = n ∧ natToDigitsAux f n ≠ [] := by
  intro f
  induction f with
  | zero => intro n h; omega
  | succ f ih =>
    intro n hn
    rw [natToDigitsAux]
    by_cases h10 : n < 10
    · rw [if_pos h10]
      refine ⟨?_, ?_, by simp⟩
      · intro c hc
        rw [List.mem_singleton] at hc
        subst hc
        interval_cases n <;> decide
      · show digitsVal [Char.ofNat (48 + n)] = n
        interval_cases n <;> decide
    · rw [if_neg h10]
      have hdiv : n / 10 < f := by
        have : n / 10 < n := Nat.div_lt_self (by omega) (by omega)
        omega
      obtain ⟨ihd, ihv, ihne⟩ := ih (n / 10) hdiv
      have hmod : n % 10 < 10 := Nat.mod_lt _ (by omega)
      have hlast : (Char.ofNat (48 + n % 10)).isDigit = true ∧
          (Char.ofNat (48 + n % 10)).toNat = 48 + n % 10 := by
        set m := n % 10 with hm
        clear_value m
        interval_cases m <;> exact ⟨by decide, by decide⟩
      refine ⟨?_, ?_, by simp⟩
      · intro c hc
        rw [List.mem_append] at hc
        rcases hc with hc | hc
        · exact ihd c hc
        · rw [List.mem_singleton] at hc; subst hc; exact hlast.1
      · rw [digitsVal, List.foldl_append]
        show 10 * digitsVal (natToDigitsAux f (n / 10)) +
          ((Char.ofNat (48 + n % 10)).toNat - 48) = n
        rw [ihv, hlast.2]
        omega

/-- natToDigits facts, specialised. -/
theorem natToDigits_spec (n : Nat) :
    (∀ c ∈ natToDigits n, c.isDigit = true) ∧
    digitsVal (natToDigits n) = n ∧ natToDigits n ≠ [] :=
  natToDigitsAux_spec (n + 1) n (by omega)

/-- takeWhile over an all-true prefix followed by a stopped remainder. -/
theorem takeWhile_all_stop {p : Char → Bool} {l rest : List Char}
    (h : ∀ a ∈ l, p a = true) (hstop : rest.takeWhile p = []) :
    (l ++ rest).takeWhile p = l := by
  rw [List.takeWhile_append_of_pos h, hstop, List.append_nil]

/-- takeWhile and dropWhile on a list all of whose elements satisfy p. -/
theorem takeWhile_dropWhile_all {p : Char → Bool} :
    ∀ {l : List Char}, (∀ a ∈ l, p a = true) →
      l.takeWhile p = l ∧ l.dropWhile p = [] := by
  intro l
  induction l with
  | nil => intro _; exact ⟨rfl, rfl⟩
  | cons c rest ih =>
    intro h
    have hc : p c = true := h c (List.mem_cons_self c rest)
    obtain ⟨h1, h2⟩ := ih (fun a ha => h a (List.mem_cons_of_mem c ha))
    constructor
    · rw [List.takeWhile_cons_of_pos hc, h1]
    · rw [List.dropWhile_cons_of_pos hc, h2]

/-- stripSign does nothing when the first character is a digit. -/
theorem stripSign_digit {c : Char} {rest : List Char} (h : c.isDigit = true) :
    stripSign (c :: rest) = (false, c :: rest) := by
  rw [stripSign.eq_def]
  split
  · next r heq =>
      obtain ⟨hc, -⟩ := List.cons.inj heq
      exact absurd hc (ne_of_isDigit h (by decide))
  · rfl

/-- float() on a nonempty all-digit substring is the integer it spells. -/
theorem pyNumOfChars_digits {l : List Char} (hne : l ≠ [])
    (h : ∀ c ∈ l, c.isDigit = true) :
    pyNumOfChars l = some (.int (Int.ofNat (digitsVal l))) := by
  obtain ⟨c, rest, rfl⟩ : ∃ c rest, l = c :: rest := by
    cases l with
    | nil => exact absurd rfl hne
    | cons c rest => exact ⟨c, rest, rfl⟩
  have hsign : stripSign (c :: rest) = (false, c :: rest) :=
    stripSign_digit (h c (List.mem_cons_self c rest))
  have hall : (c :: rest).all (fun x => x.isDigit || x = '.') = true := by
    rw [List.all_eq_true]
    intro x hx
    rw [h x hx]
    rfl
  have hcount : (c :: rest).count '.' ≤ 1 := by
    have : (c :: rest).count '.' = 0 := by
      rw [List.count_eq_zero]
      intro hmem
      exact absurd (h '.' hmem) (by decide)
    omega
  have hany : (c :: rest).any Char.isDigit = true := by
    rw [List.any_eq_true]
    exact ⟨c, List.mem_cons_self c rest, h c (List.mem_cons_self c rest)⟩
  have hdot : ∀ a ∈ c :: rest, (decide (a ≠ '.')) = true := by
    intro a ha
    rw [decide_eq_true_eq]
    exact ne_of_isDigit (h a ha) (by decide)
  obtain ⟨htake, hdrop⟩ := takeWhile_dropWhile_all hdot
  simp only [pyNumOfChars, hsign]
  rw [if_pos ⟨hall, hcount, hany⟩]
  simp only [htake, hdrop]
  rfl

/-- parse_number on an all-digit run followed by a non-numeric remainder
consumes exactly the run and yields the integer it spells. -/
theorem parseNumCore_digits {c : Char} {cs rest : List Char}
    (hall : ∀ x ∈ c :: cs, x.isDigit = true)
    (hstop : rest.takeWhile (fun d => d.isDigit || d = '.') = []) :
    parseNumCore c (cs ++ rest) = (.int (Int.ofNat (digitsVal (c :: cs))), rest) := by
  have hc : c.isDigit = true := hall c (List.mem_cons_self c cs)
  have hcne : ¬(c = '-') := ne_of_isDigit hc (by decide)
  have hnum : ∀ x ∈ c :: cs, (x.isDigit || x = '.') = true := fun x hx => by
    rw [hall x hx]; rfl
  have h1 : (c :: (cs ++ rest)).takeWhile (fun d => d.isDigit || d = '.') =
      c :: cs := by
    have h2 := takeWhile_all_stop (p := fun d => d.isDigit || d = '.') hnum hstop
    simpa using h2
  have h3 : (c :: (cs ++ rest)).drop (c :: cs).length = rest := by
    rw [← List.cons_append, List.drop_left]
  simp only [parseNumCore, if_neg hcne, h1, List.nil_append, h3,
    pyNumOfChars_digits (List.cons_ne_nil c cs) hall]

/-- parse_value at positive fuel on a positive decimal run followed by a
non-numeric remainder returns the integer value and the remainder. -/
theorem parseValue_int (f : Nat) (n : Nat) (rest : List Char)
    (hstop : rest.takeWhile (fun d => d.isDigit || d = '.') = []) :
    parseRun (f + 1) (.value (natToDigits n ++ rest)) =
      .ok (.num (.int (n : Int)), rest) := by
  obtain ⟨hdig, hval, hne⟩ := natToDigits_spec n
  obtain ⟨d, ds, hd⟩ : ∃ d ds, natToDigits n = d :: ds := by
    cases hnd : natToDigits n with
    | nil => exact absurd hnd hne
    | cons d ds => exact ⟨d, ds, rfl⟩
  rw [hd] at hdig hval
  have hd0 : d.isDigit = true := hdig d (List.mem_cons_self d ds)
  rw [hd]
  rw [parseRun.eq_def]
  dsimp only
  rw [List.cons_append,
    List.dropWhile_cons_of_neg (by simp [isWs_eq_false_of_isDigit hd0])]
  dsimp only
  rw [if_neg (ne_of_isDigit hd0 (by decide) : ¬(d = '{'))]
  rw [if_neg (ne_of_isDigit hd0 (by decide) : ¬(d = '"'))]
  rw [if_pos (show (d.isDigit || d = '-') = true by rw [hd0]; rfl)]
  rw [parseNumCore_digits hdig hstop, hval]
  rfl

/-- One positional entry, keyed by the current slot, appended to the dict
when the key is fresh. -/
theorem dictInsert_append (obj : List (LuaKey × LuaVal)) (k : LuaKey)
    (v : LuaVal) (h : ∀ p ∈ obj, p.1 ≠ k) :
    dictInsert obj k v = obj ++ [(k, v)] := by
  induction obj with
  | nil => rfl
  | cons p rest ih =>
    obtain ⟨k1, v1⟩ := p
    simp only [dictInsert]
    rw [if_neg (h (k1, v1) (List.mem_cons_self _ _))]
    rw [ih (fun q hq => h q (List.mem_cons_of_mem _ hq))]
    rfl

/-- Consuming a comma separator. -/
theorem sepSkip_comma (E : List Char) : sepSkip (',' :: E) = E := by
  simp only [sepSkip]
  rw [List.dropWhile_cons_of_neg (by decide)]
  rfl

/-- The values of the accumulated entries, in order. -/
theorem entriesFor_map_snd : ∀ (vs : List LuaVal) (a : Nat),
    (entriesFor vs a).map Prod.snd = vs := by
  intro vs
  induction vs with
  | nil => intro a; rfl
  | cons v rest ih => intro a; simp only [entriesFor, List.map_cons, ih]

/-- Nonemptiness of the accumulated entries. -/
theorem entriesFor_ne_nil {vs : List LuaVal} (h : vs ≠ []) (a : Nat) :
    entriesFor vs a ≠ [] := by
  cases vs with
  | nil => exact absurd rfl h
  | cons v rest => simp [entriesFor]

/-- One iteration of the parse_object loop on a rendered positive integer:
the digits are consumed as a positional entry (the is_array flag stays
true, the slot key is fresh by the key invariant), and the loop continues
after the separator. -/
theorem tableBody_digit_step (f2 : Nat) (n : Nat) (tail2 : List Char)
    (obj : List (LuaKey × LuaVal)) (aidx : Nat)
    (hkeys : ∀ k ∈ obj.map Prod.fst,
      ∃ m : Nat, m < aidx ∧ k = .num (.int (m : Int)))
    (hstop : tail2.takeWhile (fun d => d.isDigit || d = '.') = []) :
    parseRun (f2 + 2) (.tableBody (natToDigits n ++ tail2) obj true aidx) =
      parseRun (f2 + 1)
        (.tableBody (sepSkip tail2)
          (obj ++ [(.num (.int (aidx : Int)), .num (.int (n : Int)))])
          true (aidx + 1)) := by
  obtain ⟨hdig, hval, hne⟩ := natToDigits_spec n
  obtain ⟨d, ds, hd⟩ : ∃ d ds, natToDigits n = d :: ds := by
    cases hnd : natToDigits n with
    | nil => exact absurd hnd hne
    | cons d ds => exact ⟨d, ds, rfl⟩
  have hd0 : d.isDigit = true := by
    rw [hd] at hdig; exact hdig d (List.mem_cons_self d ds)
  have hfresh : ∀ p ∈ obj, p.1 ≠ LuaKey.num (.int (aidx : Int)) := by
    intro p hp hEq
    obtain ⟨m, hm, hk⟩ := hkeys p.1 (List.mem_map_of_mem Prod.fst hp)
    rw [hk] at hEq
    have h5 : ((m : Int)) = ((aidx : Int)) := by
      injection hEq with h6
      injection h6
    omega
  have hv := parseValue_int f2 n tail2 hstop
  rw [hd, List.cons_append]
  rw [parseRun.eq_def]
  dsimp only
  rw [List.dropWhile_cons_of_neg (by simp [isWs_eq_false_of_isDigit hd0])]
  split
  · next restC heq =>
      obtain ⟨h1, -⟩ := List.cons.inj heq
      exact absurd h1 (ne_of_isDigit hd0 (by decide))
  · next heq => exact (List.cons_ne_nil _ _ heq).elim
  · next c1 rest1 heq =>
      obtain ⟨h1, h2⟩ := List.cons.inj heq
      subst h1
      subst h2
      rw [if_neg (ne_of_isDigit hd0 (by decide) : ¬(d = '['))]
      have hbw : ¬((d.isAlpha || d = '_') = true) := by
        simp only [Bool.or_eq_true, decide_eq_true_eq]
        rintro (h5 | h5)
        · rw [isAlpha_eq_false_of_isDigit hd0] at h5
          exact Bool.noConfusion h5
        · exact absurd h5 (ne_of_isDigit hd0 (by decide))
      rw [if_neg hbw]
      rw [← List.cons_append, ← hd, hv]
      dsimp only
      rw [dictInsert_append obj _ _ hfresh]

/-- serializeVal renders a nonnegative integer value as its digits. -/
theorem serializeVal_natInt (n : Nat) :
    serializeVal (.num (.int (n : Int))) = natToDigits n := by
  simp only [serializeVal]
  rw [if_neg (by omega : ¬((n : Int) < 0))]
  simp

/-- The parse_object loop on the rendered positive-integer entries followed
by the closing brace: it accumulates exactly the positional entries (keys
aidx, aidx+1, ...) and closes the table with is_array still true. -/
theorem tableBody_render (vs : List LuaVal) : ∀ (f : Nat)
    (obj : List (LuaKey × LuaVal)) (aidx : Nat),
    (∀ v ∈ vs, ∃ n : Nat, 0 < n ∧ v = .num (.int (n : Int))) →
    (∀ k ∈ obj.map Prod.fst,
      ∃ m : Nat, m < aidx ∧ k = .num (.int (m : Int))) →
    vs.length + 1 ≤ f →
    parseRun f (.tableBody (serializeEntries vs ++ ['\x7d']) obj true aidx) =
      .ok (finishObj (obj ++ entriesFor vs aidx) true, []) := by
  induction vs with
  | nil =>
    intro f obj aidx hvs hkeys hf
    obtain ⟨f2, rfl⟩ : ∃ f2, f = f2 + 1 := ⟨f - 1, by omega⟩
    show parseRun (f2 + 1) (.tableBody ['\x7d'] obj true aidx) =
      .ok (finishObj (obj ++ []) true, [])
    rw [List.append_nil]
    rfl
  | cons v rest ih =>
    intro f obj aidx hvs hkeys hf
    obtain ⟨n, hn, hv⟩ := hvs v (List.mem_cons_self v rest)
    subst hv
    obtain ⟨f2, rfl⟩ : ∃ f2, f = f2 + 2 := by
      refine ⟨f - 2, ?_⟩
      have := hf
      simp only [List.length_cons] at this
      omega
    have hkeys2 : ∀ k ∈ (obj ++
        [(LuaKey.num (.int (aidx : Int)), LuaVal.num (.int (n : Int)))]).map
          Prod.fst,
        ∃ m : Nat, m < aidx + 1 ∧ k = .num (.int (m : Int)) := by
      intro k hk
      rw [List.map_append, List.mem_append] at hk
      rcases hk with hk | hk
      · obtain ⟨m, hm, he⟩ := hkeys k hk
        exact ⟨m, by omega, he⟩
      · simp only [List.map_cons, List.map_nil, List.mem_singleton] at hk
        exact ⟨aidx, by omega, hk⟩
    cases rest with
    | nil =>
      have hser :
          serializeEntries [LuaVal.num (.int (n : Int))] = natToDigits n :=
        serializeVal_natInt n
      rw [hser]
      rw [tableBody_digit_step f2 n ['\x7d'] obj aidx hkeys (by decide)]
      rw [show sepSkip ['\x7d'] = ['\x7d'] from rfl]
      have hrec := ih (f2 + 1)
        (obj ++ [(LuaKey.num (.int (aidx : Int)), LuaVal.num (.int (n : Int)))])
        (aidx + 1) (fun x hx => absurd hx (List.not_mem_nil x)) hkeys2
        (by simp)
      have h2 : obj ++ entriesFor [LuaVal.num (.int (n : Int))] aidx =
          (obj ++ [(LuaKey.num (.int (aidx : Int)),
            LuaVal.num (.int (n : Int)))]) ++ entriesFor [] (aidx + 1) := by
        simp [entriesFor]
      rw [h2]
      exact hrec
    | cons w ws =>
      have hser : serializeEntries (LuaVal.num (.int (n : Int)) :: w :: ws) =
          natToDigits n ++ ',' :: serializeEntries (w :: ws) := by
        rw [serializeEntries.eq_def]
        dsimp only
        rw [serializeVal_natInt n]
      rw [hser, List.append_assoc, List.cons_append]
      have hstop2 : (',' :: (serializeEntries (w :: ws) ++ ['\x7d'])).takeWhile
          (fun d => d.isDigit || d = '.') = [] :=
        List.takeWhile_cons_of_neg (by decide)
      rw [tableBody_digit_step f2 n
        (',' :: (serializeEntries (w :: ws) ++ ['\x7d'])) obj aidx hkeys hstop2]
      rw [sepSkip_comma]
      have hvs2 : ∀ x ∈ w :: ws, ∃ m : Nat, 0 < m ∧ x = .num (.int (m : Int)) :=
        fun x hx => hvs x (List.mem_cons_of_mem _ hx)
      have hf2 : (w :: ws).length + 1 ≤ f2 + 1 := by
        have := hf
        simp only [List.length_cons] at this ⊢
        omega
      have hrec := ih (f2 + 1)
        (obj ++ [(LuaKey.num (.int (aidx : Int)), LuaVal.num (.int (n : Int)))])
        (aidx + 1) hvs2 hkeys2 hf2
      rw [hrec]
      rw [show entriesFor (LuaVal.num (.int (n : Int)) :: w :: ws) aidx =
        (LuaKey.num (.int (aidx : Int)), LuaVal.num (.int (n : Int))) ::
          entriesFor (w :: ws) (aidx + 1) from rfl]
      rw [List.append_assoc]
      rfl

/-- A successful one-entry parse comes from the assignment-found path: the
regex matched on the stripped input, the '=' was found after the name, and
parse_value produced the wrapped value. -/
theorem parseLuaTable_inv {fuel : Nat} {input : List Char} {k : LuaKey}
    {v : LuaVal} (h : parseLuaTable fuel input = .ok (.table [(k, v)])) :
    ∃ nm after rest rem, findAssign (stripComments input) = some (nm, after) ∧
      after.dropWhile isWs = '=' :: rest ∧
      parseRun fuel (.value rest) = .ok (v, rem) ∧ k = .str (String.mk nm) := by
  simp only [parseLuaTable] at h
  cases hfind : findAssign (stripComments input) with
  | none =>
    rw [hfind] at h
    simp at h
  | some pr =>
    obtain ⟨nm, after⟩ := pr
    rw [hfind] at h
    dsimp only at h
    cases hdrop : after.dropWhile isWs with
    | nil =>
      rw [hdrop] at h
      exact Except.noConfusion h
    | cons c rest =>
      rw [hdrop] at h
      dsimp only at h
      by_cases hc : c = '='
      · rw [if_pos hc] at h
        cases hrun : parseRun fuel (.value rest) with
        | error e =>
          rw [hrun] at h
          exact Except.noConfusion h
        | ok pr2 =>
          obtain ⟨v0, rem⟩ := pr2
          rw [hrun] at h
          dsimp only at h
          injection h with h1
          injection h1 with h2
          injection h2 with h3 h4
          obtain ⟨h5, h6⟩ := Prod.mk.inj h3
          subst hc
          refine ⟨nm, after, rest, rem, rfl, hdrop, ?_, h5.symm⟩
          rw [hrun, h6]
      · rw [if_neg hc] at h
        simp at h

/-- The name found by the regex is a nonempty run of word characters. -/
theorem findAssign_name : ∀ {l nm after : List Char},
    findAssign l = some (nm, after) →
    nm ≠ [] ∧ ∀ c ∈ nm, isWord c = true := by
  intro l
  induction l with
  | nil => intro nm after h; exact Option.noConfusion h
  | cons c rest ih =>
    intro nm after h
    rw [findAssign] at h
    by_cases hw : isWord c = true
    · rw [if_pos hw] at h
      dsimp only at h
      by_cases hchk : checkAssignHead
          ((c :: rest).drop ((c :: rest).takeWhile isWord).length) = true
      · rw [if_pos hchk] at h
        injection h with h1
        obtain ⟨h2, -⟩ := Prod.mk.inj h1
        subst h2
        refine ⟨?_, ?_⟩
        · rw [List.takeWhile_cons_of_pos hw]
          exact List.cons_ne_nil _ _
        · intro x hx
          exact List.mem_takeWhile_imp hx
      · rw [if_neg hchk] at h
        exact ih h
    · rw [if_neg hw] at h
      exact ih h

/-- Comment stripping is the identity on text with no dash at all. -/
theorem stripCommentsAux_no_dash : ∀ {l : List Char}, '-' ∉ l →
    stripCommentsAux false l = l := by
  intro l
  induction l with
  | nil => intro _; rfl
  | cons c rest ih =>
    intro h
    have hc : c ≠ '-' := by
      intro he
      exact h (by rw [he]; exact List.mem_cons_self _ _)
    have hrest : '-' ∉ rest := fun hm => h (List.mem_cons_of_mem c hm)
    have hcs : isCommentStart (c :: rest) = false := by
      rw [isCommentStart.eq_def]
      split
      · next heq =>
          obtain ⟨h1, -⟩ := List.cons.inj heq
          exact absurd h1 hc
      · rfl
    rw [stripCommentsAux.eq_def]
    dsimp only
    rw [if_neg (by simp [hcs])]
    rw [ih hrest]

/-- The rendered entries contain only digits and commas. -/
theorem serializeEntries_chars : ∀ {vs : List LuaVal},
    (∀ v ∈ vs, ∃ n : Nat, 0 < n ∧ v = .num (.int (n : Int))) →
    ∀ c ∈ serializeEntries vs, c.isDigit = true ∨ c = ',' := by
  intro vs
  induction vs with
  | nil => intro _ c hc; exact absurd hc (List.not_mem_nil c)
  | cons v rest ih =>
    intro hvs c hc
    obtain ⟨n, hn, hv⟩ := hvs v (List.mem_cons_self v rest)
    subst hv
    cases rest with
    | nil =>
      rw [show serializeEntries [LuaVal.num (.int (n : Int))] =
        serializeVal (.num (.int (n : Int))) from rfl,
        serializeVal_natInt] at hc
      exact Or.inl ((natToDigits_spec n).1 c hc)
    | cons w ws =>
      rw [show serializeEntries (LuaVal.num (.int (n : Int)) :: w :: ws) =
        serializeVal (.num (.int (n : Int))) ++
          ',' :: serializeEntries (w :: ws) from rfl,
        serializeVal_natInt] at hc
      rw [List.mem_append] at hc
      rcases hc with hc | hc
      · exact Or.inl ((natToDigits_spec n).1 c hc)
      · rw [List.mem_cons] at hc
        rcases hc with hc | hc
        · exact Or.inr hc
        · exact ih (fun x hx => hvs x (List.mem_cons_of_mem _ hx)) c hc

/-- findAssign on a word run followed by a non-word tail that matches the
assignment pattern: the match is found at position 0 with the full run as
the group. -/
theorem findAssign_word_head {nm tail2 : List Char} (hne : nm ≠ [])
    (hw : ∀ c ∈ nm, isWord c = true)
    (htail : tail2.takeWhile isWord = [])
    (hchk : checkAssignHead tail2 = true) :
    findAssign (nm ++ tail2) = some (nm, tail2) := by
  obtain ⟨c, nm2, rfl⟩ : ∃ c nm2, nm = c :: nm2 := by
    cases nm with
    | nil => exact absurd rfl hne
    | cons c nm2 => exact ⟨c, nm2, rfl⟩
  have h1 : (c :: (nm2 ++ tail2)).takeWhile isWord = c :: nm2 := by
    have h2 := takeWhile_all_stop (p := isWord) hw htail
    simpa using h2
  have h3 : (c :: (nm2 ++ tail2)).drop (c :: nm2).length = tail2 := by
    rw [← List.cons_append, List.drop_left]
  rw [List.cons_append, findAssign]
  rw [if_pos (hw c (List.mem_cons_self _ _))]
  dsimp only
  rw [h1, h3, if_pos hchk]

/-- The assignment-head test succeeds on " = \x7b...". -/
theorem checkAssignHead_eq (E : List Char) :
    checkAssignHead (' ' :: '=' :: ' ' :: '\x7b' :: E) = true := by
  simp only [checkAssignHead]
  rw [List.dropWhile_cons_of_pos (by decide),
    List.dropWhile_cons_of_neg (by decide)]
  rfl

/-- C7: round trip.  Whenever parse yields one top-level assignment whose
value is an ordered sequence of positive integers, re-serializing that
sequence as a Lua table literal (spec-modelled serializer: the repository
has no serializer of its own) and parsing again yields the same sequence,
order preserved, under the same name. -/
theorem c7_round_trip :
    ∀ (fuel : Nat) (input : List Char) (name : String) (vs : List LuaVal),
      parseLuaTable fuel input = .ok (.table [(.str name, .list vs)]) →
      (∀ v ∈ vs, ∃ n : Nat, 0 < n ∧ v = .num (.int (n : Int))) →
      parseLuaTable (vs.length + 3) (serializeSeq name.data vs) =
        .ok (.table [(.str name, .list vs)]) := by
  intro fuel input name vs hparse hvs
  obtain ⟨nm, after, rest, rem, hfind, hdrop, hrun, hk⟩ :=
    parseLuaTable_inv hparse
  have hname : name = String.mk nm := by injection hk
  have hdata : name.data = nm := by rw [hname]
  obtain ⟨hnmne, hnmw⟩ := findAssign_name hfind
  have hvsne : vs ≠ [] := by
    intro he
    have hb := parseRun_no_empty_seq fuel (.value rest)
    rw [hrun, he] at hb
    exact Bool.noConfusion hb
  have hserShape : serializeSeq nm vs =
      nm ++ (' ' :: '=' :: ' ' :: '\x7b' ::
        (serializeEntries vs ++ ['\x7d'])) := rfl
  have hnodash : stripComments (serializeSeq nm vs) = serializeSeq nm vs := by
    apply stripCommentsAux_no_dash
    rw [hserShape, List.mem_append]
    rintro (hm | hm)
    · have := hnmw '-' hm
      exact absurd this (by decide)
    · simp only [List.mem_cons] at hm
      rcases hm with hm | hm | hm | hm | hm
      · exact absurd hm (by decide)
      · exact absurd hm (by decide)
      · exact absurd hm (by decide)
      · exact absurd hm (by decide)
      · rw [List.mem_append] at hm
        rcases hm with hm | hm
        · rcases serializeEntries_chars hvs '-' hm with hd | hd
          · exact absurd hd (by decide)
          · exact absurd hd (by decide)
        · rw [List.mem_singleton] at hm
          exact absurd hm (by decide)
  have hfind2 : findAssign (serializeSeq nm vs) =
      some (nm, ' ' :: '=' :: ' ' :: '\x7b' ::
        (serializeEntries vs ++ ['\x7d'])) := by
    rw [hserShape]
    exact findAssign_word_head hnmne hnmw
      (List.takeWhile_cons_of_neg (by decide)) (checkAssignHead_eq _)
  have hemp : (entriesFor vs 1).isEmpty = false := by
    cases hvv : entriesFor vs 1 with
    | nil => exact absurd hvv (entriesFor_ne_nil hvsne 1)
    | cons a b => rfl
  have hrun2 : parseRun ((vs.length + 2) + 1)
      (.value (' ' :: '\x7b' :: (serializeEntries vs ++ ['\x7d']))) =
      .ok (.list vs, []) := by
    rw [parseRun.eq_def]
    dsimp only
    rw [List.dropWhile_cons_of_pos (by decide),
      List.dropWhile_cons_of_neg (by decide)]
    dsimp only
    rw [if_pos rfl]
    rw [tableBody_render vs (vs.length + 2) [] 1 hvs
      (fun k hk2 => absurd hk2 (List.not_mem_nil k)) (by omega)]
    rw [List.nil_append, finishObj]
    rw [if_pos (show (true && !(entriesFor vs 1).isEmpty) = true by
      rw [hemp]; rfl)]
    rw [entriesFor_map_snd]
  rw [hdata, hname]
  simp only [parseLuaTable]
  rw [hnodash, hfind2]
  dsimp only
  rw [List.dropWhile_cons_of_pos (by decide),
    List.dropWhile_cons_of_neg (by decide)]
  dsimp only
  rw [if_pos rfl]
  rw [show vs.length + 3 = (vs.length + 2) + 1 from rfl, hrun2]

/-- C7 witness: the round-trip theorem applied to the concrete parse of
t = \x7b1,2\x7d. -/
theorem c7_witness :
    parseLuaTable
      ([LuaVal.num (.int ((1 : Nat) : Int)),
        LuaVal.num (.int ((2 : Nat) : Int))].length + 3)
      (serializeSeq "t".data
        [LuaVal.num (.int ((1 : Nat) : Int)),
         LuaVal.num (.int ((2 : Nat) : Int))]) =
      .ok (.table [(.str "t",
        .list [LuaVal.num (.int ((1 : Nat) : Int)),
          LuaVal.num (.int ((2 : Nat) : Int))])]) :=
  c7_round_trip 100 "t = \x7b1,2\x7d".data "t"
    [LuaVal.num (.int ((1 : Nat) : Int)), LuaVal.num (.int ((2 : Nat) : Int))]
    rfl
    (by
      intro v hv
      simp only [List.mem_cons, List.not_mem_nil, or_false] at hv
      rcases hv with h | h
      · exact ⟨1, by omega, h⟩
      · exact ⟨2, by omega, h⟩)

end Holocron
